import Mathlib

/-!
# Rational number value type (C13-Rational-Number-SOLUTION.cpp)

A shallow embedding of the C++ class `Rational` and a verification of its
specification.

Modelling conventions.

* The C++ `int` fields and locals are integers (`Int`). The definitions `gcd`,
  `simplify`, `setNumerator`, `setDenominator`, `new`, ... compute on
  mathematical integers: they describe the executions in which no `int`
  operation overflows, and are used for the statements made under that
  proviso.
* The definitions `abs32`, `gcd32`, `simplify32`, `setNumerator32`,
  `setDenominator32`, `new32` are the same code on 32-bit `int`: the two
  operations that can overflow there, `abs` and unary minus, wrap around
  (`wrap`), so that `abs(INT_MIN)` and `-INT_MIN` are `INT_MIN`. They are used
  for the statements made about every `int`. On values other than `INT_MIN` the
  two families agree (`gcd32_eq_gcd`, `simplify32_eq_simplify`).
* C++ `/` and `%` on `int` truncate towards zero: they are `Int.tdiv` and
  `Int.tmod`.
* A method that mutates `*this` is a function from the state before the call
  to the state after it; a method that also returns a value returns a pair
  (returned value, state after).
* Text written to `cout` by `setDenominator` is returned as a list of lines.
-/

namespace RationalNumber

/-- The two private fields of `class Rational`. -/
structure Rational where
  numerator : Int
  denominator : Int
  deriving DecidableEq

/-- C `abs` on `int`, when the result is representable. -/
def cabs (x : Int) : Int := if x < 0 then -x else x

/-- The `for` loop of `Rational::gcd`: the loop variable `commonDivisor` starts
at `a` (non-negative after `abs`) and is decremented while it is `> 1`, so it is
carried as a natural number; the first value dividing both `a` and `b` is
returned, and `1` when the loop ends. -/
def gcdLoop (a b : Int) : Nat → Int
  | 0 => 1
  | k + 1 =>
    if ((k + 1 : Nat) : Int) > 1 then
      if a.tmod ((k + 1 : Nat) : Int) = 0 ∧ b.tmod ((k + 1 : Nat) : Int) = 0 then
        ((k + 1 : Nat) : Int)
      else gcdLoop a b k
    else 1

/-- The static `Rational::gcd(int a, int b)` (brute force). -/
def gcd (a b : Int) : Int :=
  let a1 := cabs a
  let b1 := cabs b
  -- if (a > b) swap(a, b);
  let a2 := if a1 > b1 then b1 else a1
  let b2 := if a1 > b1 then a1 else b1
  gcdLoop a2 b2 a2.toNat

/-- The private `Rational::simplify()`. -/
def simplify (r : Rational) : Rational :=
  let common := gcd r.numerator r.denominator
  let r1 : Rational :=
    if common ≠ 0 then
      Rational.mk (r.numerator.tdiv common) (r.denominator.tdiv common)
    else r
  if r1.denominator < 0 then Rational.mk (-r1.numerator) (-r1.denominator) else r1

/-- The line `setDenominator` writes to `cout` when it is given `0`. -/
def zeroDenominatorMessage : String :=
  "Error: Denominator cannot be zero. Setting to 1."

/-- The method `setDenominator(int den)`: the state after the call and the
lines written to `cout`. -/
def setDenominator (r : Rational) (den : Int) : Rational × List String :=
  if den = 0 then
    (Rational.mk r.numerator 1, [zeroDenominatorMessage])
  else
    (simplify (Rational.mk r.numerator den), [])

/-- The method `setNumerator(int num)`. -/
def setNumerator (r : Rational) (num : Int) : Rational :=
  simplify (Rational.mk num r.denominator)

/-- The constructor `Rational(int num = 1, int den = 1)`: `numerator = num;
setDenominator(den);`. The field `denominator` is not initialised before the
call of `setDenominator`, which overwrites it without reading it; the model
starts it at `0` (see `setDenominator_denominator_irrelevant`). -/
def new (num den : Int) : Rational :=
  (setDenominator (Rational.mk num 0) den).1

/-- The constructor called with no argument. -/
def newDefault : Rational := new 1 1

/-- The accessor `getNumerator()`. -/
def getNumerator (r : Rational) : Int := r.numerator

/-- The accessor `getDenominator()`. -/
def getDenominator (r : Rational) : Int := r.denominator

/-- The method `add`. -/
def add (x other : Rational) : Rational :=
  let newNum := x.numerator * other.denominator + other.numerator * x.denominator
  let newDen := x.denominator * other.denominator
  new newNum newDen

/-- The method `subtract`. -/
def subtract (x other : Rational) : Rational :=
  let newNum := x.numerator * other.denominator - other.numerator * x.denominator
  let newDen := x.denominator * other.denominator
  new newNum newDen

/-- The member `operator+` (Rational + Rational). -/
def plus (x other : Rational) : Rational :=
  let newNum := x.numerator * other.denominator + other.numerator * x.denominator
  let newDen := x.denominator * other.denominator
  new newNum newDen

/-- The friend `operator+` (int + Rational). -/
def intPlus (lhs : Int) (rhs : Rational) : Rational :=
  new (lhs * rhs.denominator + rhs.numerator) rhs.denominator

/-- The member `operator-`. -/
def minus (x other : Rational) : Rational := subtract x other

/-- The operator `++` before its operand: returned value (the object itself) and
state after. -/
def preInc (r : Rational) : Rational × Rational :=
  let s := simplify (Rational.mk (r.numerator + r.denominator) r.denominator)
  (s, s)

/-- The operator `++` after its operand: returned copy and state after. -/
def postInc (r : Rational) : Rational × Rational :=
  let temp := r
  (temp, (preInc r).2)

/-- The operator `--` before its operand: returned value and state after. -/
def preDec (r : Rational) : Rational × Rational :=
  let s := simplify (Rational.mk (r.numerator - r.denominator) r.denominator)
  (s, s)

/-- The operator `--` after its operand: returned copy and state after. -/
def postDec (r : Rational) : Rational × Rational :=
  let temp := r
  (temp, (preDec r).2)

/-- The member `operator<`. -/
def less (x other : Rational) : Bool :=
  decide (x.numerator * other.denominator < other.numerator * x.denominator)

/-- The member `operator==`. -/
def equal (x other : Rational) : Bool :=
  decide (x.numerator = other.numerator) && decide (x.denominator = other.denominator)

/-- The member `operator+=`: returned value (the object itself) and state
after. -/
def plusAssign (x other : Rational) : Rational × Rational :=
  let numerator1 := x.numerator * other.denominator + other.numerator * x.denominator
  let denominator1 := x.denominator * other.denominator
  let s := simplify (Rational.mk numerator1 denominator1)
  (s, s)

/-- The standard library's `std::to_string(int)`: the decimal digits of the
absolute value, after a minus sign when the value is negative. -/
def to_string (n : Int) : String :=
  String.mk (if n < 0 then '-' :: Nat.toDigits 10 n.natAbs else Nat.toDigits 10 n.natAbs)

/-- The method `toString()`. -/
def toString (r : Rational) : String :=
  to_string r.numerator ++ "/" ++ to_string r.denominator

/-- The friend `operator<<`: the stream is the text written to it so far;
`sout << r.toString(); return sout;`. -/
def streamInsert (sout : String) (r : Rational) : String :=
  sout ++ toString r

/-- The value of a decimal digit character. -/
def digitValue (c : Char) : Nat := c.toNat - 48

/-- The number a list of decimal digits denotes, most significant digit first. -/
def decimalValue (l : List Char) : Nat :=
  l.foldl (fun acc c => 10 * acc + digitValue c) 0

/-- The smallest value of a 32-bit `int`. -/
def INT_MIN : Int := -2147483648

/-- The largest value of a 32-bit `int`. -/
def INT_MAX : Int := 2147483647

/-- The values of a 32-bit `int`. -/
def InRange (x : Int) : Prop := INT_MIN ≤ x ∧ x ≤ INT_MAX

instance (x : Int) : Decidable (InRange x) :=
  inferInstanceAs (Decidable (INT_MIN ≤ x ∧ x ≤ INT_MAX))

/-- Two's complement wrap-around of a mathematical result to 32 bits. -/
def wrap (x : Int) : Int := (x + 2147483648) % 4294967296 - 2147483648

/-- C `abs` on 32-bit `int`: `abs(INT_MIN)` wraps to `INT_MIN`. -/
def abs32 (x : Int) : Int := if x < 0 then wrap (-x) else x

/-- The static `Rational::gcd(int a, int b)` on 32-bit `int`. The loop is the
one of `gcd`: it runs on values from `1` to `a`, where nothing overflows, and not
at all when `a` is negative after `abs`. -/
def gcd32 (a b : Int) : Int :=
  let a1 := abs32 a
  let b1 := abs32 b
  -- if (a > b) swap(a, b);
  let a2 := if a1 > b1 then b1 else a1
  let b2 := if a1 > b1 then a1 else b1
  gcdLoop a2 b2 a2.toNat

/-- The private `Rational::simplify()` on 32-bit `int`: the two negations wrap
around; the divisor is at least `1` (`gcd32_pos`), so the divisions do not
overflow. -/
def simplify32 (r : Rational) : Rational :=
  let common := gcd32 r.numerator r.denominator
  let r1 : Rational :=
    if common ≠ 0 then
      Rational.mk (r.numerator.tdiv common) (r.denominator.tdiv common)
    else r
  if r1.denominator < 0 then Rational.mk (wrap (-r1.numerator)) (wrap (-r1.denominator))
  else r1

/-- The method `setDenominator(int den)` on 32-bit `int`. -/
def setDenominator32 (r : Rational) (den : Int) : Rational × List String :=
  if den = 0 then
    (Rational.mk r.numerator 1, [zeroDenominatorMessage])
  else
    (simplify32 (Rational.mk r.numerator den), [])

/-- The method `setNumerator(int num)` on 32-bit `int`. -/
def setNumerator32 (r : Rational) (num : Int) : Rational :=
  simplify32 (Rational.mk num r.denominator)

/-- The constructor `Rational(int num = 1, int den = 1)` on 32-bit `int`. -/
def new32 (num den : Int) : Rational :=
  (setDenominator32 (Rational.mk num 0) den).1

/-- Reduced form as the glossary states it: numerator and denominator have no
common divisor greater than `1`. -/
def ReducedForm (r : Rational) : Prop :=
  Nat.gcd r.numerator.natAbs r.denominator.natAbs = 1

instance (r : Rational) : Decidable (ReducedForm r) :=
  inferInstanceAs (Decidable (Nat.gcd r.numerator.natAbs r.denominator.natAbs = 1))

/-- Reduced form as the specification's invariant states it: the numerator is
`0`, or numerator and denominator have greatest common divisor `1`. -/
def Reduced (r : Rational) : Prop :=
  r.numerator = 0 ∨ Nat.gcd r.numerator.natAbs r.denominator.natAbs = 1

instance (r : Rational) : Decidable (Reduced r) :=
  inferInstanceAs (Decidable (r.numerator = 0 ∨ Nat.gcd r.numerator.natAbs r.denominator.natAbs = 1))

/-- The class invariant: positive denominator and reduced form. -/
def Normalized (r : Rational) : Prop :=
  0 < r.denominator ∧ Reduced r

instance (r : Rational) : Decidable (Normalized r) :=
  inferInstanceAs (Decidable (0 < r.denominator ∧ Reduced r))

/-! ## The brute-force gcd -/

theorem cabs_eq_natAbs (x : Int) : cabs x = (x.natAbs : Int) := by
  unfold cabs
  split <;> omega

/-- What the loop of `gcd` computes, for natural arguments: a common divisor
`g ≥ 1` that is at least every common divisor not above the start value. -/
theorem gcdLoop_spec (a b : Nat) (n : Nat) :
    ∃ g : Nat, gcdLoop (a : Int) (b : Int) n = (g : Int) ∧ 1 ≤ g ∧ g ∣ a ∧ g ∣ b ∧
      ∀ c : Nat, c ≤ n → c ∣ a → c ∣ b → c ≤ g := by
  induction n with
  | zero =>
    refine ⟨1, rfl, le_refl 1, one_dvd a, one_dvd b, ?_⟩
    intro c hc _ _
    omega
  | succ k ih =>
    obtain ⟨g, hg, hg1, hga, hgb, hmax⟩ := ih
    unfold gcdLoop
    by_cases hk : (((k + 1 : Nat) : Int) > 1)
    · rw [if_pos hk]
      by_cases hd : (Int.tmod (a : Int) ((k + 1 : Nat) : Int) = 0 ∧
          Int.tmod (b : Int) ((k + 1 : Nat) : Int) = 0)
      · rw [if_pos hd]
        refine ⟨k + 1, rfl, by omega, ?_, ?_, fun c hc _ _ => hc⟩
        · exact Int.natCast_dvd_natCast.mp (Int.dvd_of_tmod_eq_zero hd.1)
        · exact Int.natCast_dvd_natCast.mp (Int.dvd_of_tmod_eq_zero hd.2)
      · rw [if_neg hd]
        refine ⟨g, hg, hg1, hga, hgb, ?_⟩
        intro c hc hca hcb
        rcases Nat.lt_or_ge c (k + 1) with hlt | hge
        · exact hmax c (by omega) hca hcb
        · have hck : c = k + 1 := by omega
          subst hck
          exact absurd ⟨Int.tmod_eq_zero_of_dvd (Int.natCast_dvd_natCast.mpr hca),
            Int.tmod_eq_zero_of_dvd (Int.natCast_dvd_natCast.mpr hcb)⟩ hd
    · rw [if_neg hk]
      refine ⟨1, rfl, le_refl 1, one_dvd a, one_dvd b, ?_⟩
      intro c hc _ _
      omega

/-- The loop started at `m ≥ 1` on `(m, n)` returns the greatest common
divisor of `m` and `n`. -/
theorem gcdLoop_eq_gcd (m n : Nat) (hm : 0 < m) :
    gcdLoop (m : Int) (n : Int) m = (Nat.gcd m n : Int) := by
  obtain ⟨g, hg, _, hgm, hgn, hmax⟩ := gcdLoop_spec m n m
  rw [hg]
  have h1 : Nat.gcd m n ≤ g :=
    hmax _ (Nat.le_of_dvd hm (Nat.gcd_dvd_left m n)) (Nat.gcd_dvd_left m n)
      (Nat.gcd_dvd_right m n)
  have h2 : g ≤ Nat.gcd m n :=
    Nat.le_of_dvd (Nat.gcd_pos_of_pos_left n hm) (Nat.dvd_gcd hgm hgn)
  exact_mod_cast le_antisymm h2 h1

/-- The value of `gcd` on every input: `1` when an argument is `0`, the
greatest common divisor of the absolute values otherwise. -/
theorem gcd_eq (a b : Int) :
    gcd a b = if a = 0 ∨ b = 0 then 1 else (Nat.gcd a.natAbs b.natAbs : Int) := by
  unfold gcd
  simp only [cabs_eq_natAbs]
  by_cases hab : ((a.natAbs : Int) > (b.natAbs : Int))
  · simp only [if_pos hab, Int.toNat_ofNat]
    by_cases hb : b = 0
    · subst hb
      simp [gcdLoop]
    · have hb0 : 0 < b.natAbs := Int.natAbs_pos.mpr hb
      have ha : a ≠ 0 := by
        intro h
        subst h
        rw [Int.natAbs_zero] at hab
        omega
      rw [gcdLoop_eq_gcd _ _ hb0, if_neg (by tauto), Nat.gcd_comm]
  · simp only [if_neg hab, Int.toNat_ofNat]
    by_cases ha : a = 0
    · subst ha
      simp [gcdLoop]
    · have ha0 : 0 < a.natAbs := Int.natAbs_pos.mpr ha
      have hb : b ≠ 0 := by
        intro h
        subst h
        rw [Int.natAbs_zero] at hab
        omega
      rw [gcdLoop_eq_gcd _ _ ha0, if_neg (by tauto)]

theorem gcd_pos (a b : Int) : 0 < gcd a b := by
  rw [gcd_eq]
  split
  · exact Int.one_pos
  · rename_i h
    have ha : a ≠ 0 := fun e => h (Or.inl e)
    exact_mod_cast Nat.gcd_pos_of_pos_left _ (Int.natAbs_pos.mpr ha)

theorem gcd_dvd_left (a b : Int) : gcd a b ∣ a := by
  rw [gcd_eq]
  split
  · exact one_dvd a
  · exact Int.natCast_dvd.mpr (Nat.gcd_dvd_left _ _)

theorem gcd_dvd_right (a b : Int) : gcd a b ∣ b := by
  rw [gcd_eq]
  split
  · exact one_dvd b
  · exact Int.natCast_dvd.mpr (Nat.gcd_dvd_right _ _)

/-! ## Normalisation -/

theorem tdiv_eq_of_eq_mul (a g q : Int) (hg : g ≠ 0) (h : a = g * q) : a.tdiv g = q := by
  subst h
  exact Int.mul_tdiv_cancel_left _ hg

theorem natAbs_eq_of_eq_mul (a q : Int) (g : Nat) (h : a = (g : Int) * q) :
    a.natAbs = g * q.natAbs := by
  subst h
  rw [Int.natAbs_mul, Int.natAbs_ofNat]

theorem coprime_of_gcd_factor (k x y x0 y0 : Nat) (hk : 0 < k) (hg : Nat.gcd x y = k)
    (hx : x = k * x0) (hy : y = k * y0) : Nat.gcd x0 y0 = 1 := by
  subst hx hy
  rw [Nat.gcd_mul_left] at hg
  exact Nat.eq_of_mul_eq_mul_left hk (by rw [mul_one]; exact hg)

/-- The effect of `simplify` in closed form: both fields are divided exactly by
the computed common divisor, and the signs are flipped when the denominator
was negative. -/
theorem simplify_eq (n d : Int) :
    simplify (Rational.mk n d) =
      if d < 0 then Rational.mk (-(n.tdiv (gcd n d))) (-(d.tdiv (gcd n d)))
      else Rational.mk (n.tdiv (gcd n d)) (d.tdiv (gcd n d)) := by
  have hg := gcd_pos n d
  obtain ⟨d0, hd0⟩ := gcd_dvd_right n d
  have hq : d.tdiv (gcd n d) = d0 := tdiv_eq_of_eq_mul _ _ _ (ne_of_gt hg) hd0
  have hsign : d0 < 0 ↔ d < 0 := by
    constructor
    · intro h
      have := Int.mul_neg_of_pos_of_neg hg h
      omega
    · intro h
      by_contra hc
      have h0 : 0 ≤ gcd n d * d0 := Int.mul_nonneg (le_of_lt hg) (not_lt.mp hc)
      omega
  unfold simplify
  simp only [ne_eq, ne_of_gt hg, not_false_eq_true, if_true, hq, hsign]

/-- What `simplify` establishes when the denominator is not `0`: a positive
denominator, reduced form, and the same value. -/
theorem simplify_spec (n d : Int) (hd : d ≠ 0) :
    0 < (simplify (Rational.mk n d)).denominator ∧
      Reduced (simplify (Rational.mk n d)) ∧
      (simplify (Rational.mk n d)).numerator * d =
        n * (simplify (Rational.mk n d)).denominator := by
  have hg := gcd_pos n d
  obtain ⟨n0, hn0⟩ := gcd_dvd_left n d
  obtain ⟨d0, hd0⟩ := gcd_dvd_right n d
  have hqn : n.tdiv (gcd n d) = n0 := tdiv_eq_of_eq_mul _ _ _ (ne_of_gt hg) hn0
  have hqd : d.tdiv (gcd n d) = d0 := tdiv_eq_of_eq_mul _ _ _ (ne_of_gt hg) hd0
  have hd0ne : d0 ≠ 0 := by
    intro h
    rw [h, mul_zero] at hd0
    exact hd hd0
  have hred : n0 = 0 ∨ Nat.gcd n0.natAbs d0.natAbs = 1 := by
    by_cases hn : n = 0
    · left
      rcases mul_eq_zero.mp (hn0.symm.trans hn) with h | h
      · exact absurd h (ne_of_gt hg)
      · exact h
    · right
      have hgv : gcd n d = (Nat.gcd n.natAbs d.natAbs : Int) := by
        rw [gcd_eq, if_neg (by tauto)]
      have hgp : 0 < Nat.gcd n.natAbs d.natAbs := by
        rw [hgv] at hg
        exact_mod_cast hg
      have e1 : n.natAbs = Nat.gcd n.natAbs d.natAbs * n0.natAbs :=
        natAbs_eq_of_eq_mul _ _ _ (hgv ▸ hn0)
      have e2 : d.natAbs = Nat.gcd n.natAbs d.natAbs * d0.natAbs :=
        natAbs_eq_of_eq_mul _ _ _ (hgv ▸ hd0)
      exact coprime_of_gcd_factor _ _ _ _ _ hgp rfl e1 e2
  rw [simplify_eq, hqn, hqd]
  have hval : n0 * d = n * d0 := by
    calc n0 * d = n0 * (gcd n d * d0) := congrArg (n0 * ·) hd0
      _ = (gcd n d * n0) * d0 := by ring
      _ = n * d0 := congrArg (· * d0) hn0.symm
  by_cases hneg : d < 0
  · rw [if_pos hneg]
    have hd0neg : d0 < 0 := by
      by_contra hc
      have h0 : 0 ≤ gcd n d * d0 := Int.mul_nonneg (le_of_lt hg) (not_lt.mp hc)
      omega
    refine ⟨by simp only; omega, ?_, ?_⟩
    · unfold Reduced
      simp only [Int.natAbs_neg, neg_eq_zero]
      exact hred
    · simp only
      linarith
  · rw [if_neg hneg]
    have hd0pos : 0 < d0 := by
      rcases lt_trichotomy d0 0 with h | h | h
      · have := Int.mul_neg_of_pos_of_neg hg h
        omega
      · exact absurd h hd0ne
      · exact h
    exact ⟨hd0pos, hred, hval⟩

/-! ## The constructor and the setters -/

/-- The constructor never reads the uninitialised field: `setDenominator`
gives the same result whatever the denominator was before the call. -/
theorem setDenominator_denominator_irrelevant (n d1 d2 den : Int) :
    setDenominator (Rational.mk n d1) den = setDenominator (Rational.mk n d2) den := rfl

theorem new_zero (num : Int) : new num 0 = Rational.mk num 1 := rfl

theorem new_of_ne_zero (num den : Int) (h : den ≠ 0) :
    new num den = simplify (Rational.mk num den) := by
  unfold new setDenominator
  rw [if_neg h]

theorem reduced_of_denominator_one (n : Int) : Reduced (Rational.mk n 1) := by
  right
  exact Nat.gcd_one_right _

/-- The constructor establishes the class invariant, for every argument pair. -/
theorem new_normalized (num den : Int) : Normalized (new num den) := by
  by_cases h : den = 0
  · subst h
    exact ⟨Int.one_pos, reduced_of_denominator_one num⟩
  · rw [new_of_ne_zero num den h]
    exact ⟨(simplify_spec num den h).1, (simplify_spec num den h).2.1⟩

/-- The constructor keeps the value of the fraction when `den ≠ 0`. -/
theorem new_value (num den : Int) (h : den ≠ 0) :
    (new num den).numerator * den = num * (new num den).denominator := by
  rw [new_of_ne_zero num den h]
  exact (simplify_spec num den h).2.2

/-- The step `simplify` after an assignment to a field keeps or establishes the
class invariant as soon as the denominator is not `0`. -/
theorem simplify_normalized (n d : Int) (hd : d ≠ 0) : Normalized (simplify (Rational.mk n d)) :=
  ⟨(simplify_spec n d hd).1, (simplify_spec n d hd).2.1⟩

theorem gcd_one_right (n : Int) : gcd n 1 = 1 := by
  rw [gcd_eq]
  split
  · rfl
  · simp

/-- The constructor leaves `n/1` as it is. -/
theorem new_one (n : Int) : new n 1 = Rational.mk n 1 := by
  rw [new_of_ne_zero n 1 one_ne_zero, simplify_eq, gcd_one_right]
  simp

/-- Two normalized fractions with non-zero numerators and the same value have
the same fields. -/
theorem normalized_unique (r s : Rational) (hr : Normalized r) (hs : Normalized s)
    (hrn : r.numerator ≠ 0) (hsn : s.numerator ≠ 0)
    (hval : r.numerator * s.denominator = s.numerator * r.denominator) : r = s := by
  obtain ⟨n1, d1⟩ := r
  obtain ⟨n2, d2⟩ := s
  obtain ⟨hd1, hred1⟩ := hr
  obtain ⟨hd2, hred2⟩ := hs
  simp only at hd1 hd2 hrn hsn hval
  have hg1 : Int.gcd d1 n1 = 1 := by
    rcases hred1 with h | h
    · exact absurd h hrn
    · rw [Int.gcd_comm]
      exact h
  have hg2 : Int.gcd d2 n2 = 1 := by
    rcases hred2 with h | h
    · exact absurd h hsn
    · rw [Int.gcd_comm]
      exact h
  have h12 : d1 ∣ d2 :=
    Int.dvd_of_dvd_mul_right_of_gcd_one (Dvd.intro_left n2 hval.symm) hg1
  have h21 : d2 ∣ d1 :=
    Int.dvd_of_dvd_mul_right_of_gcd_one (Dvd.intro_left n1 hval) hg2
  have hd : d1 = d2 :=
    le_antisymm (Int.le_of_dvd hd2 h12) (Int.le_of_dvd hd1 h21)
  subst hd
  have hn : n1 = n2 := Int.eq_of_mul_eq_mul_right (ne_of_gt hd1) hval
  subst hn
  rfl

/-- Outside the case of two zero numerators, `==` on constructed objects agrees
with equality of the values. -/
theorem equal_new_iff (a b c d : Int) (hb : b ≠ 0) (hd : d ≠ 0) (hac : a ≠ 0 ∨ c ≠ 0) :
    equal (new a b) (new c d) = true ↔ a * d = c * b := by
  have v1 := new_value a b hb
  have v2 := new_value c d hd
  have p1 := (new_normalized a b).1
  have p2 := (new_normalized c d).1
  have hfields : equal (new a b) (new c d) = true ↔ new a b = new c d := by
    unfold equal
    rw [Bool.and_eq_true, decide_eq_true_iff, decide_eq_true_iff]
    constructor
    · intro h
      cases hx : new a b
      cases hy : new c d
      rw [hx, hy] at h
      simp only at h
      rw [h.1, h.2]
    · intro h
      rw [h]
      exact ⟨rfl, rfl⟩
  rw [hfields]
  constructor
  · intro h
    rw [h] at v1
    have e : (a * d) * (new c d).denominator = (c * b) * (new c d).denominator := by
      calc (a * d) * (new c d).denominator
          = (a * (new c d).denominator) * d := by ring
        _ = ((new c d).numerator * b) * d := by rw [v1]
        _ = ((new c d).numerator * d) * b := by ring
        _ = (c * (new c d).denominator) * b := by rw [v2]
        _ = (c * b) * (new c d).denominator := by ring
    exact Int.eq_of_mul_eq_mul_right (ne_of_gt p2) e
  · intro h
    have ha : a ≠ 0 := by
      rcases hac with h1 | h1
      · exact h1
      · intro h0
        rw [h0, zero_mul] at h
        exact (mul_ne_zero h1 hb) h.symm
    have hc : c ≠ 0 := by
      intro h0
      rw [h0, zero_mul] at h
      exact (mul_ne_zero ha hd) h
    have hn1 : (new a b).numerator ≠ 0 := by
      intro h0
      rw [h0, zero_mul] at v1
      exact (mul_ne_zero ha (ne_of_gt p1)) v1.symm
    have hn2 : (new c d).numerator ≠ 0 := by
      intro h0
      rw [h0, zero_mul] at v2
      exact (mul_ne_zero hc (ne_of_gt p2)) v2.symm
    refine normalized_unique _ _ (new_normalized a b) (new_normalized c d) hn1 hn2 ?_
    have e : ((new a b).numerator * (new c d).denominator) * (b * d) =
        ((new c d).numerator * (new a b).denominator) * (b * d) := by
      calc ((new a b).numerator * (new c d).denominator) * (b * d)
          = ((new a b).numerator * b) * (new c d).denominator * d := by ring
        _ = (a * d) * ((new a b).denominator * (new c d).denominator) := by rw [v1]; ring
        _ = (c * b) * ((new a b).denominator * (new c d).denominator) := by rw [h]
        _ = ((new c d).numerator * d) * (new a b).denominator * b := by rw [v2]; ring
        _ = ((new c d).numerator * (new a b).denominator) * (b * d) := by ring
    exact Int.eq_of_mul_eq_mul_right (mul_ne_zero hb hd) e

/-- The value `gcd` computes on a normalized pair is `1`. -/
theorem gcd_of_normalized (r : Rational) (hr : Normalized r) :
    gcd r.numerator r.denominator = 1 := by
  rw [gcd_eq]
  split
  · rfl
  · rename_i h
    rcases hr.2 with h0 | h1
    · exact absurd (Or.inl h0) h
    · rw [h1]
      rfl

/-- On a normalized object `simplify` changes nothing. -/
theorem simplify_of_normalized (r : Rational) (hr : Normalized r) : simplify r = r := by
  obtain ⟨n, d⟩ := r
  have hg : gcd n d = 1 := gcd_of_normalized (Rational.mk n d) hr
  have hd : ¬ d < 0 := not_lt.mpr (le_of_lt hr.1)
  rw [simplify_eq, if_neg hd, hg, Int.tdiv_one, Int.tdiv_one]

/-- With a zero denominator `simplify` changes nothing either (the computed
common divisor is `1`). -/
theorem simplify_denominator_zero (n : Int) :
    simplify (Rational.mk n 0) = Rational.mk n 0 := by
  have hg : gcd n 0 = 1 := by
    rw [gcd_eq, if_pos (Or.inr rfl)]
  rw [simplify_eq, if_neg (lt_irrefl 0), hg, Int.tdiv_one, Int.tdiv_one]

/-- The function `simplify` is idempotent on every state. -/
theorem simplify_idempotent (s : Rational) : simplify (simplify s) = simplify s := by
  obtain ⟨n, d⟩ := s
  by_cases hd : d = 0
  · subst hd
    rw [simplify_denominator_zero, simplify_denominator_zero]
  · exact simplify_of_normalized _ (simplify_normalized n d hd)

/-- Rebuilding a normalized object from its fields gives the same object. -/
theorem new_of_normalized (r : Rational) (hr : Normalized r) :
    new r.numerator r.denominator = r := by
  rw [new_of_ne_zero _ _ (ne_of_gt hr.1)]
  exact simplify_of_normalized r hr

/-- Adding a multiple of the denominator to the numerator keeps the pair
coprime. -/
theorem coprime_add_mul_denominator (n d z : Int)
    (h : Nat.gcd n.natAbs d.natAbs = 1) : Nat.gcd (n + d * z).natAbs d.natAbs = 1 := by
  have hc : IsCoprime n d := Int.isCoprime_iff_gcd_eq_one.mpr h
  exact Int.isCoprime_iff_gcd_eq_one.mp (hc.add_mul_left_left z)

/-- On a normalized object with a non-zero numerator, `++` only adds the
denominator to the numerator, and the result is normalized. -/
theorem preInc_of_normalized (r : Rational) (hr : Normalized r) (hn : r.numerator ≠ 0) :
    (preInc r).2 = Rational.mk (r.numerator + r.denominator) r.denominator ∧
      Normalized (Rational.mk (r.numerator + r.denominator) r.denominator) := by
  have hco : Nat.gcd r.numerator.natAbs r.denominator.natAbs = 1 := by
    rcases hr.2 with h | h
    · exact absurd h hn
    · exact h
  have hnorm : Normalized (Rational.mk (r.numerator + r.denominator) r.denominator) := by
    refine ⟨hr.1, Or.inr ?_⟩
    have := coprime_add_mul_denominator r.numerator r.denominator 1 hco
    rwa [mul_one] at this
  exact ⟨simplify_of_normalized _ hnorm, hnorm⟩

/-- On a normalized object with a non-zero numerator, `--` only subtracts the
denominator from the numerator, and the result is normalized. -/
theorem preDec_of_normalized (r : Rational) (hr : Normalized r) (hn : r.numerator ≠ 0) :
    (preDec r).2 = Rational.mk (r.numerator - r.denominator) r.denominator ∧
      Normalized (Rational.mk (r.numerator - r.denominator) r.denominator) := by
  have hco : Nat.gcd r.numerator.natAbs r.denominator.natAbs = 1 := by
    rcases hr.2 with h | h
    · exact absurd h hn
    · exact h
  have hnorm : Normalized (Rational.mk (r.numerator - r.denominator) r.denominator) := by
    refine ⟨hr.1, Or.inr ?_⟩
    have := coprime_add_mul_denominator r.numerator r.denominator (-1) hco
    rwa [mul_neg, mul_one, ← sub_eq_add_neg] at this
  exact ⟨simplify_of_normalized _ hnorm, hnorm⟩

/-- On a normalized object with a non-zero numerator, `++` then `--`, and `--`
then `++`, give the object back. -/
theorem inc_dec_cancel_of_normalized (r : Rational) (hr : Normalized r)
    (hn : r.numerator ≠ 0) :
    (preDec (preInc r).2).2 = r ∧ (preInc (preDec r).2).2 = r := by
  constructor
  · rw [(preInc_of_normalized r hr hn).1]
    unfold preDec
    simp only [add_sub_cancel_right]
    exact simplify_of_normalized r hr
  · rw [(preDec_of_normalized r hr hn).1]
    unfold preInc
    simp only [sub_add_cancel]
    exact simplify_of_normalized r hr

/-! ## Rendering -/

theorem digitChar_isDigit (k : Nat) (h : k < 10) : (Nat.digitChar k).isDigit = true := by
  have key : ∀ j : Fin 10, (Nat.digitChar j.val).isDigit = true := by decide
  exact key ⟨k, h⟩

theorem digitChar_not_whitespace (k : Nat) (h : k < 10) :
    (Nat.digitChar k).isWhitespace = false := by
  have key : ∀ j : Fin 10, (Nat.digitChar j.val).isWhitespace = false := by decide
  exact key ⟨k, h⟩

theorem digitValue_digitChar (k : Nat) (h : k < 10) : digitValue (Nat.digitChar k) = k := by
  have key : ∀ j : Fin 10, digitValue (Nat.digitChar j.val) = j.val := by decide
  exact key ⟨k, h⟩

/-- Every character the digit loop adds is the character of a digit below `10`. -/
theorem toDigitsCore_forall (P : Char → Prop) (hP : ∀ k : Nat, k < 10 → P (Nat.digitChar k))
    (fuel : Nat) : ∀ (n : Nat) (ds : List Char), (∀ c ∈ ds, P c) →
      ∀ c ∈ Nat.toDigitsCore 10 fuel n ds, P c := by
  induction fuel with
  | zero =>
    intro n ds hds c hc
    exact hds c hc
  | succ f ih =>
    intro n ds hds c hc
    have hcons : ∀ x ∈ Nat.digitChar (n % 10) :: ds, P x := by
      intro x hx
      rcases List.mem_cons.mp hx with h | h
      · rw [h]
        exact hP _ (Nat.mod_lt n (by decide))
      · exact hds x h
    unfold Nat.toDigitsCore at hc
    by_cases h0 : n / 10 = 0
    · simp only [h0, if_true] at hc
      exact hcons c hc
    · simp only [h0, if_false] at hc
      exact ih (n / 10) _ hcons c hc

theorem toDigits_forall (P : Char → Prop) (hP : ∀ k : Nat, k < 10 → P (Nat.digitChar k))
    (n : Nat) : ∀ c ∈ Nat.toDigits 10 n, P c :=
  toDigitsCore_forall P hP (n + 1) n [] (fun c hc => absurd hc (List.not_mem_nil c))

/-- Reading the digits the loop produced gives the number back, when the fuel
is enough. -/
theorem foldl_toDigitsCore (fuel : Nat) : ∀ (n : Nat) (ds : List Char), n < fuel →
    (Nat.toDigitsCore 10 fuel n ds).foldl (fun acc c => 10 * acc + digitValue c) 0 =
      ds.foldl (fun acc c => 10 * acc + digitValue c) n := by
  induction fuel with
  | zero =>
    intro n ds h
    omega
  | succ f ih =>
    intro n ds h
    have hv := digitValue_digitChar (n % 10) (Nat.mod_lt n (by decide))
    unfold Nat.toDigitsCore
    by_cases h0 : n / 10 = 0
    · simp only [h0, if_true, List.foldl_cons, hv]
      congr 1
      omega
    · simp only [h0, if_false]
      rw [ih (n / 10) _ (by omega), List.foldl_cons, hv]
      congr 1
      omega

/-- The digits of `n` denote `n`. -/
theorem decimalValue_toDigits (n : Nat) : decimalValue (Nat.toDigits 10 n) = n :=
  foldl_toDigitsCore (n + 1) n [] (Nat.lt_succ_self n)

/-- The text of `to_string n`: an optional minus sign, then the digits of `|n|`. -/
theorem to_string_data (n : Int) :
    (to_string n).data = (if n < 0 then ['-'] else []) ++ Nat.toDigits 10 n.natAbs := by
  unfold to_string
  split <;> rfl

theorem to_string_no_whitespace (n : Int) :
    ∀ c ∈ (to_string n).data, c.isWhitespace = false := by
  intro c hc
  rw [to_string_data] at hc
  rcases List.mem_append.mp hc with h | h
  · split at h
    · rw [List.mem_singleton.mp h]
      decide
    · exact absurd h (List.not_mem_nil c)
  · exact toDigits_forall (fun x => x.isWhitespace = false) digitChar_not_whitespace _ c h

theorem toString_data (r : Rational) :
    (toString r).data =
      (to_string r.numerator).data ++ '/' :: (to_string r.denominator).data := by
  unfold toString
  simp [String.data_append]

/-! ## 32-bit `int` -/

/-- The `int` values whose absolute value is an `int`: all but `INT_MIN`. -/
theorem inRange_ne_min_iff (x : Int) :
    (InRange x ∧ x ≠ INT_MIN) ↔ (-2147483647 ≤ x ∧ x ≤ 2147483647) := by
  unfold InRange INT_MIN INT_MAX
  omega

theorem wrap_of_inRange (x : Int) (h : InRange x) : wrap x = x := by
  unfold InRange INT_MIN INT_MAX at h
  unfold wrap
  omega

theorem wrap_neg_of_ne_min (x : Int) (h : InRange x) (hm : x ≠ INT_MIN) : wrap (-x) = -x := by
  unfold InRange INT_MIN INT_MAX at *
  unfold wrap
  omega

theorem wrap_neg_min : wrap (-INT_MIN) = INT_MIN := by decide

theorem abs32_eq_cabs (x : Int) (h : InRange x) (hm : x ≠ INT_MIN) : abs32 x = cabs x := by
  unfold abs32 cabs
  split
  · exact wrap_neg_of_ne_min x h hm
  · rfl

theorem abs32_min : abs32 INT_MIN = INT_MIN := by decide

theorem abs32_nonneg (x : Int) (h : InRange x) (hm : x ≠ INT_MIN) : 0 ≤ abs32 x := by
  rw [abs32_eq_cabs x h hm, cabs_eq_natAbs]
  exact Int.ofNat_nonneg _

theorem abs32_ge_min (x : Int) (h : InRange x) : INT_MIN ≤ abs32 x := by
  by_cases hm : x = INT_MIN
  · rw [hm, abs32_min]
  · have := abs32_nonneg x h hm
    unfold INT_MIN
    omega

/-- Away from `INT_MIN`, the 32-bit `gcd` is the `gcd` without overflow. -/
theorem gcd32_eq_gcd (a b : Int) (ha : InRange a) (hb : InRange b) (ham : a ≠ INT_MIN)
    (hbm : b ≠ INT_MIN) : gcd32 a b = gcd a b := by
  unfold gcd32 gcd
  rw [abs32_eq_cabs a ha ham, abs32_eq_cabs b hb hbm]

/-- When an argument is `INT_MIN`, `abs` leaves it negative, the loop does not
run and the 32-bit `gcd` returns `1`. -/
theorem gcd32_of_min (a b : Int) (ha : InRange a) (hb : InRange b)
    (h : a = INT_MIN ∨ b = INT_MIN) : gcd32 a b = 1 := by
  have h1 := abs32_ge_min a ha
  have h2 := abs32_ge_min b hb
  have hneg : abs32 a = INT_MIN ∨ abs32 b = INT_MIN := by
    rcases h with h | h
    · left
      rw [h, abs32_min]
    · right
      rw [h, abs32_min]
  have hz : (if abs32 a > abs32 b then abs32 b else abs32 a).toNat = 0 := by
    unfold INT_MIN at h1 h2 hneg
    split <;> omega
  unfold gcd32
  simp only [hz]
  rfl

theorem gcd32_pos (a b : Int) (ha : InRange a) (hb : InRange b) : 0 < gcd32 a b := by
  by_cases h : a = INT_MIN ∨ b = INT_MIN
  · rw [gcd32_of_min a b ha hb h]
    exact Int.one_pos
  · rw [gcd32_eq_gcd a b ha hb (fun e => h (Or.inl e)) (fun e => h (Or.inr e))]
    exact gcd_pos a b

/-- A quotient by any divisor is no larger than the dividend, so it stays away
from `INT_MIN` when the dividend does. -/
theorem tdiv_inRange (x g : Int) (hx : InRange x) (hm : x ≠ INT_MIN) :
    InRange (x.tdiv g) ∧ x.tdiv g ≠ INT_MIN := by
  have h1 : (x.tdiv g).natAbs ≤ x.natAbs := by
    rw [Int.natAbs_tdiv]
    exact Nat.div_le_self _ _
  unfold InRange INT_MIN INT_MAX at *
  omega

/-- The effect of the 32-bit `simplify` when the computed common divisor is `1`. -/
theorem simplify32_of_gcd_one (n d : Int) (h : gcd32 n d = 1) :
    simplify32 (Rational.mk n d) =
      if d < 0 then Rational.mk (wrap (-n)) (wrap (-d)) else Rational.mk n d := by
  unfold simplify32
  simp only [h, ne_eq, one_ne_zero, not_false_eq_true, if_true, Int.tdiv_one]

/-- Away from `INT_MIN`, the 32-bit `simplify` is the `simplify` without overflow,
and its result stays away from `INT_MIN`. -/
theorem simplify32_eq_simplify (n d : Int) (hn : InRange n) (hd : InRange d)
    (hnm : n ≠ INT_MIN) (hdm : d ≠ INT_MIN) :
    simplify32 (Rational.mk n d) = simplify (Rational.mk n d) ∧
      (InRange (simplify (Rational.mk n d)).numerator ∧
        (simplify (Rational.mk n d)).numerator ≠ INT_MIN) ∧
      (InRange (simplify (Rational.mk n d)).denominator ∧
        (simplify (Rational.mk n d)).denominator ≠ INT_MIN) := by
  have hg := gcd_pos n d
  have hqn := tdiv_inRange n (gcd n d) hn hnm
  have hqd := tdiv_inRange d (gcd n d) hd hdm
  have e : simplify32 (Rational.mk n d) = simplify (Rational.mk n d) := by
    unfold simplify32 simplify
    simp only [gcd32_eq_gcd n d hn hd hnm hdm, ne_eq, ne_of_gt hg, not_false_eq_true, if_true]
    split
    · rw [wrap_neg_of_ne_min _ hqn.1 hqn.2, wrap_neg_of_ne_min _ hqd.1 hqd.2]
    · rfl
  refine ⟨e, ?_, ?_⟩
  · rw [simplify_eq]
    unfold InRange INT_MIN INT_MAX at *
    split <;> simp only <;> omega
  · rw [simplify_eq]
    unfold InRange INT_MIN INT_MAX at *
    split <;> simp only <;> omega

/-- The 32-bit `simplify` on a numerator `INT_MIN`: the numerator stays, the
denominator becomes its absolute value. -/
theorem simplify32_min_numerator (d : Int) (hd : InRange d) (hdm : d ≠ INT_MIN) :
    simplify32 (Rational.mk INT_MIN d) =
      if d < 0 then Rational.mk INT_MIN (-d) else Rational.mk INT_MIN d := by
  have hmin : InRange INT_MIN := by decide
  rw [simplify32_of_gcd_one _ _ (gcd32_of_min INT_MIN d hmin hd (Or.inl rfl))]
  split
  · rw [wrap_neg_min, wrap_neg_of_ne_min d hd hdm]
  · rfl

/-- The 32-bit `simplify` on a denominator `INT_MIN`: the numerator is negated
and the denominator stays negative. -/
theorem simplify32_min_denominator (n : Int) (hn : InRange n) :
    simplify32 (Rational.mk n INT_MIN) = Rational.mk (wrap (-n)) INT_MIN := by
  have hmin : InRange INT_MIN := by decide
  rw [simplify32_of_gcd_one _ _ (gcd32_of_min n INT_MIN hn hmin (Or.inr rfl))]
  rw [if_pos (by decide), wrap_neg_min]

/-- The 32-bit `simplify` changes nothing on a state it produced from a
denominator other than `INT_MIN`. -/
theorem simplify32_idempotent (n d : Int) (hn : InRange n) (hd : InRange d)
    (hdm : d ≠ INT_MIN) :
    simplify32 (simplify32 (Rational.mk n d)) = simplify32 (Rational.mk n d) := by
  by_cases hnm : n = INT_MIN
  · subst hnm
    rw [simplify32_min_numerator d hd hdm]
    split
    · rename_i hneg
      have hr : InRange (-d) ∧ -d ≠ INT_MIN ∧ ¬ (-d < 0) := by
        unfold InRange INT_MIN INT_MAX at *
        omega
      rw [simplify32_min_numerator (-d) hr.1 hr.2.1, if_neg hr.2.2]
    · rename_i hneg
      rw [simplify32_min_numerator d hd hdm, if_neg hneg]
  · obtain ⟨e, hsn, hsd⟩ := simplify32_eq_simplify n d hn hd hnm hdm
    rw [e]
    have e2 := (simplify32_eq_simplify _ _ hsn.1 hsd.1 hsn.2 hsd.2).1
    rw [e2]
    exact simplify_idempotent _

theorem new32_of_ne_zero (num den : Int) (h : den ≠ 0) :
    new32 num den = simplify32 (Rational.mk num den) := by
  unfold new32 setDenominator32
  rw [if_neg h]

/-- The 32-bit `simplify` leaves a positive denominator when the denominator it
is given is neither `0` nor `INT_MIN`. -/
theorem simplify32_denominator_pos (n d : Int) (hn : InRange n) (hd : InRange d)
    (hd0 : d ≠ 0) (hdm : d ≠ INT_MIN) : 0 < (simplify32 (Rational.mk n d)).denominator := by
  by_cases hnm : n = INT_MIN
  · subst hnm
    rw [simplify32_min_numerator d hd hdm]
    split <;> simp only <;> omega
  · rw [(simplify32_eq_simplify n d hn hd hnm hdm).1]
    exact (simplify_spec n d hd0).1

/-- The 32-bit `simplify` leaves `n/1` as it is. -/
theorem simplify32_denominator_one (n : Int) (hn : InRange n) :
    simplify32 (Rational.mk n 1) = Rational.mk n 1 := by
  have h1 : InRange 1 := by decide
  have h1m : (1 : Int) ≠ INT_MIN := by decide
  by_cases hnm : n = INT_MIN
  · subst hnm
    rw [simplify32_min_numerator 1 h1 h1m, if_neg (by decide)]
  · rw [(simplify32_eq_simplify n 1 hn h1 hnm h1m).1]
    exact simplify_of_normalized _ ⟨Int.one_pos, reduced_of_denominator_one n⟩

/-- On 32-bit `int`, an object built from a denominator other than `INT_MIN` is
a fixed point of `simplify` and has a positive denominator. -/
theorem new32_fixed (num den : Int) (hnum : InRange num) (hden : InRange den)
    (hmin : den ≠ INT_MIN) :
    simplify32 (new32 num den) = new32 num den ∧ 0 < (new32 num den).denominator := by
  by_cases h0 : den = 0
  · subst h0
    exact ⟨simplify32_denominator_one num hnum, Int.one_pos⟩
  · rw [new32_of_ne_zero num den h0]
    exact ⟨simplify32_idempotent num den hnum hden hmin,
      simplify32_denominator_pos num den hnum hden h0 hmin⟩

/-- Without overflow, `simplify` on the same denominator separates different
numerators. -/
theorem simplify_numerator_injective (x y b : Int) (hb : b ≠ 0)
    (h : simplify (Rational.mk x b) = simplify (Rational.mk y b)) : x = y := by
  have hx := simplify_spec x b hb
  have hy := simplify_spec y b hb
  rw [h] at hx
  have e : x * (simplify (Rational.mk y b)).denominator =
      y * (simplify (Rational.mk y b)).denominator := by
    rw [← hx.2.2, hy.2.2]
  exact Int.eq_of_mul_eq_mul_right (ne_of_gt hy.1) e

/-- Without overflow, `simplify` keeps the numerator `a` over the denominator `d`
only if `a = 0` or `a` and `d` have no common divisor above `1`. -/
theorem coprime_of_simplify_numerator (a d : Int) (hd : d ≠ 0)
    (h : (simplify (Rational.mk a d)).numerator = a) :
    a = 0 ∨ Nat.gcd a.natAbs d.natAbs = 1 := by
  by_cases ha : a = 0
  · exact Or.inl ha
  · right
    have hs := simplify_spec a d hd
    have e2 : (simplify (Rational.mk a d)).denominator = d := by
      have e := hs.2.2
      rw [h] at e
      exact (Int.eq_of_mul_eq_mul_left ha e).symm
    have hred := hs.2.1
    unfold Reduced at hred
    rw [h, e2] at hred
    rcases hred with h0 | h1
    · exact absurd h0 ha
    · exact h1

/-- Where the brute-force gcd is the greatest common divisor: both arguments
non-zero (no overflow). -/
theorem gcd_eq_natGcd (a b : Int) (ha : a ≠ 0) (hb : b ≠ 0) :
    gcd a b = (Nat.gcd a.natAbs b.natAbs : Int) := by
  rw [gcd_eq, if_neg (by tauto)]

/-- The value, the sign and the reduction of a sum (no overflow): the result is
in reduced form as soon as its numerator is not `0`. -/
theorem add_value (x y : Rational) (hx : 0 < x.denominator) (hy : 0 < y.denominator) :
    (add x y).numerator * (x.denominator * y.denominator) =
        (x.numerator * y.denominator + y.numerator * x.denominator) * (add x y).denominator ∧
      0 < (add x y).denominator ∧
      ((add x y).numerator ≠ 0 → ReducedForm (add x y)) := by
  have hprod : x.denominator * y.denominator ≠ 0 := mul_ne_zero (ne_of_gt hx) (ne_of_gt hy)
  refine ⟨new_value _ _ hprod, (new_normalized _ _).1, fun hne => ?_⟩
  rcases (new_normalized _ _).2 with h | h
  · exact absurd h hne
  · exact h

/-- The value, the sign and the reduction of a difference (no overflow): the
result is in reduced form as soon as its numerator is not `0`. -/
theorem subtract_value (x y : Rational) (hx : 0 < x.denominator) (hy : 0 < y.denominator) :
    (subtract x y).numerator * (x.denominator * y.denominator) =
        (x.numerator * y.denominator - y.numerator * x.denominator) *
          (subtract x y).denominator ∧
      0 < (subtract x y).denominator ∧
      ((subtract x y).numerator ≠ 0 → ReducedForm (subtract x y)) := by
  have hprod : x.denominator * y.denominator ≠ 0 := mul_ne_zero (ne_of_gt hx) (ne_of_gt hy)
  refine ⟨new_value _ _ hprod, (new_normalized _ _).1, fun hne => ?_⟩
  rcases (new_normalized _ _).2 with h | h
  · exact absurd h hne
  · exact h

/-! ## The claims of the specification -/

/-- C1: for every pair of integers `(num, den)`, `den = 0` included, the object
built by `Rational(num, den)` has a denominator `> 0`, and its numerator is `0`
or the greatest common divisor of `|numerator|` and `|denominator|` is `1`. -/
theorem C1_constructor_invariant (num den : Int) :
    0 < getDenominator (new num den) ∧
      (getNumerator (new num den) = 0 ∨
        Nat.gcd (getNumerator (new num den)).natAbs (getDenominator (new num den)).natAbs = 1) :=
  new_normalized num den

/-- C2: construction preserves the value of the fraction: for `den ≠ 0` the
object `r = Rational(num, den)` satisfies
`r.getNumerator() * den = num * r.getDenominator()`; and `Rational(40, -60)` has
numerator `-2` and denominator `3`. -/
theorem C2_constructor_value (num den : Int) (hden : den ≠ 0) :
    getNumerator (new num den) * den = num * getDenominator (new num den) ∧
      getNumerator (new 40 (-60)) = -2 ∧ getDenominator (new 40 (-60)) = 3 :=
  ⟨new_value num den hden, by decide, by decide⟩

theorem C2_constructor_value_witness :
    getNumerator (new 6 (-4)) * (-4) = 6 * getDenominator (new 6 (-4)) ∧
      getNumerator (new 40 (-60)) = -2 ∧ getDenominator (new 40 (-60)) = 3 :=
  C2_constructor_value 6 (-4) (by decide)

/-- C3: the normalized form (denominator `> 0`, reduced) is an invariant of every
public operation: from a normalized object (and a normalized argument), the
object after `setNumerator(v)`, `setDenominator(v)`, `++` and `--` in both
positions and `+=` is normalized again, and the values returned by `add`,
`subtract`, `operator+`, `operator-` and `int + Rational` are normalized. -/
theorem C3_operations_keep_normalized (r other : Rational) (v lhs : Int)
    (hr : Normalized r) (hother : Normalized other) :
    Normalized (setNumerator r v) ∧ Normalized (setDenominator r v).1 ∧
      Normalized (preInc r).2 ∧ Normalized (postInc r).2 ∧
      Normalized (preDec r).2 ∧ Normalized (postDec r).2 ∧
      Normalized (plusAssign r other).2 ∧
      Normalized (add r other) ∧ Normalized (subtract r other) ∧
      Normalized (plus r other) ∧ Normalized (minus r other) ∧
      Normalized (intPlus lhs other) := by
  have hd : r.denominator ≠ 0 := ne_of_gt hr.1
  have hprod : r.denominator * other.denominator ≠ 0 :=
    mul_ne_zero hd (ne_of_gt hother.1)
  refine ⟨simplify_normalized _ _ hd, ?_, simplify_normalized _ _ hd,
    simplify_normalized _ _ hd, simplify_normalized _ _ hd, simplify_normalized _ _ hd,
    simplify_normalized _ _ hprod, new_normalized _ _, new_normalized _ _,
    new_normalized _ _, new_normalized _ _, new_normalized _ _⟩
  unfold setDenominator
  by_cases hv : v = 0
  · rw [if_pos hv]
    exact ⟨Int.one_pos, reduced_of_denominator_one _⟩
  · rw [if_neg hv]
    exact simplify_normalized _ _ hv

theorem C3_operations_keep_normalized_witness :
    Normalized (setNumerator (Rational.mk 1 2) 6) ∧
      Normalized (setDenominator (Rational.mk 1 2) 6).1 ∧
      Normalized (preInc (Rational.mk 1 2)).2 ∧ Normalized (postInc (Rational.mk 1 2)).2 ∧
      Normalized (preDec (Rational.mk 1 2)).2 ∧ Normalized (postDec (Rational.mk 1 2)).2 ∧
      Normalized (plusAssign (Rational.mk 1 2) (Rational.mk (-3) 4)).2 ∧
      Normalized (add (Rational.mk 1 2) (Rational.mk (-3) 4)) ∧
      Normalized (subtract (Rational.mk 1 2) (Rational.mk (-3) 4)) ∧
      Normalized (plus (Rational.mk 1 2) (Rational.mk (-3) 4)) ∧
      Normalized (minus (Rational.mk 1 2) (Rational.mk (-3) 4)) ∧
      Normalized (intPlus 5 (Rational.mk (-3) 4)) :=
  C3_operations_keep_normalized (Rational.mk 1 2) (Rational.mk (-3) 4) 6 5
    (by decide) (by decide)

/-- C4 (evaluation of the code where the claim fails): the claim says that
`x.add(y)` has the value of the sum, a positive denominator and is in reduced
form. `Rational(1,2).add(Rational(-1,2))` is stored as `0/4`: the value and the
sign are right, but `0` and `4` have the common divisor `4`, because `gcd(0, 4)`
returns `1`. The example of the claim, `Rational(3,4).add(Rational(1,2))`, is
`5/4`; whenever the sum is not zero the result is reduced (`add_value`). -/
theorem C4_add_zero_sum_not_reduced :
    add (new 1 2) (new (-1) 2) = Rational.mk 0 4 ∧
      gcd 0 4 = 1 ∧ Nat.gcd (0 : Int).natAbs (4 : Int).natAbs = 4 ∧
      ¬ ReducedForm (add (new 1 2) (new (-1) 2)) ∧
      (add (new 1 2) (new (-1) 2)).numerator * (2 * 2) =
        (1 * 2 + (-1) * 2) * (add (new 1 2) (new (-1) 2)).denominator ∧
      0 < (add (new 1 2) (new (-1) 2)).denominator ∧
      add (new 3 4) (new 1 2) = Rational.mk 5 4 := by
  decide

/-- C5 (evaluation of the code where the claim fails): the claim says that
`x.subtract(y)` and `x - y` have the value of the difference, a positive
denominator and are in reduced form. `Rational(1,2).subtract(Rational(1,2))`
and `Rational(1,2) - Rational(1,2)` are stored as `0/4`: the value and the sign
are right, but `0` and `4` have the common divisor `4`, because `gcd(0, 4)`
returns `1`. The example of the claim, `Rational(3,4).subtract(Rational(1,2))`,
is `1/4`; whenever the difference is not zero the result is reduced
(`subtract_value`). -/
theorem C5_subtract_zero_difference_not_reduced :
    subtract (new 1 2) (new 1 2) = Rational.mk 0 4 ∧
      minus (new 1 2) (new 1 2) = Rational.mk 0 4 ∧
      gcd 0 4 = 1 ∧ Nat.gcd (0 : Int).natAbs (4 : Int).natAbs = 4 ∧
      ¬ ReducedForm (subtract (new 1 2) (new 1 2)) ∧
      (subtract (new 1 2) (new 1 2)).numerator * (2 * 2) =
        (1 * 2 - 1 * 2) * (subtract (new 1 2) (new 1 2)).denominator ∧
      0 < (subtract (new 1 2) (new 1 2)).denominator ∧
      subtract (new 3 4) (new 1 2) = Rational.mk 1 4 := by
  decide

/-- C6: integer-left addition treats the integer as `n/1`: for every integer
`n` and every Rational `r = c/d`, `n + r` equals `Rational(n*d + c, d)` and is
field-for-field identical to `Rational(n, 1) + r` computed by the member
`operator+`; and `5 + Rational(3,4)` is `23/4`. -/
theorem C6_int_plus_as_rational (n : Int) (r : Rational) :
    intPlus n r = new (n * r.denominator + r.numerator) r.denominator ∧
      intPlus n r = plus (new n 1) r ∧
      intPlus 5 (new 3 4) = Rational.mk 23 4 := by
  refine ⟨rfl, ?_, by decide⟩
  rw [new_one]
  unfold intPlus plus
  simp only [mul_one, one_mul]

/-- C7: for every Rational `r`, `setDenominator(0)` returns normally, leaves the
denominator equal to `1` and the numerator as it was, and the warning is written
if and only if the argument is `0` (for every argument `den`); `-2/3` becomes
`-2/1`. -/
theorem C7_setDenominator_zero (r : Rational) (den : Int) :
    (setDenominator r 0).1.denominator = 1 ∧
      (setDenominator r 0).1.numerator = r.numerator ∧
      ((setDenominator r den).2 = [zeroDenominatorMessage] ↔ den = 0) ∧
      ((setDenominator r den).2 = [] ↔ den ≠ 0) ∧
      (setDenominator (new (-2) 3) 0).1 = Rational.mk (-2) 1 := by
  refine ⟨rfl, rfl, ?_, ?_, by decide⟩
  · unfold setDenominator
    by_cases h : den = 0
    · simp [h]
    · simp [h]
  · unfold setDenominator
    by_cases h : den = 0
    · simp [h]
    · simp [h]

/-- C8 (the claim as stated fails): on 32-bit `int`, `abs(INT_MIN)` is `INT_MIN`,
the loop of `gcd` does not run and `gcd(INT_MIN, 6)` returns `1`, while the
greatest common divisor of `|INT_MIN| = 2^31` and `6` is `2`. -/
theorem C8_gcd_min_counterexample :
    InRange INT_MIN ∧ INT_MIN ≠ 0 ∧ abs32 INT_MIN = INT_MIN ∧
      gcd32 INT_MIN 6 = 1 ∧ gcd32 6 INT_MIN = 1 ∧
      Nat.gcd INT_MIN.natAbs (6 : Int).natAbs = 2 ∧
      gcd32 INT_MIN 6 ≠ (Nat.gcd INT_MIN.natAbs (6 : Int).natAbs : Int) := by
  decide

/-- C8 (amended): for every pair of non-zero `int` values `a` and `b` other than
`INT_MIN`, the brute-force `Rational::gcd(a, b)` returns the greatest common
divisor of `|a|` and `|b|`, so neither the signs nor the order of the arguments
matter; and `gcd(40, 60) = 20`. -/
theorem C8_gcd_correct (a b : Int) (hra : InRange a) (hrb : InRange b)
    (ham : a ≠ INT_MIN) (hbm : b ≠ INT_MIN) (ha : a ≠ 0) (hb : b ≠ 0) :
    gcd32 a b = (Nat.gcd a.natAbs b.natAbs : Int) ∧
      gcd32 b a = gcd32 a b ∧ gcd32 (-a) b = gcd32 a b ∧ gcd32 a (-b) = gcd32 a b ∧
      gcd32 (-a) (-b) = gcd32 a b ∧
      gcd32 40 60 = 20 := by
  have key : ∀ x y : Int, InRange x → InRange y → x ≠ INT_MIN → y ≠ INT_MIN →
      x ≠ 0 → y ≠ 0 → gcd32 x y = (Nat.gcd x.natAbs y.natAbs : Int) := by
    intro x y hx hy hxm hym hx0 hy0
    rw [gcd32_eq_gcd x y hx hy hxm hym, gcd_eq_natGcd x y hx0 hy0]
  have hna : InRange (-a) ∧ -a ≠ INT_MIN ∧ -a ≠ 0 := by
    unfold InRange INT_MIN INT_MAX at *
    omega
  have hnb : InRange (-b) ∧ -b ≠ INT_MIN ∧ -b ≠ 0 := by
    unfold InRange INT_MIN INT_MAX at *
    omega
  have hab := key a b hra hrb ham hbm ha hb
  refine ⟨hab, ?_, ?_, ?_, ?_, by decide⟩
  · rw [key b a hrb hra hbm ham hb ha, hab, Nat.gcd_comm]
  · rw [key (-a) b hna.1 hrb hna.2.1 hbm hna.2.2 hb, hab, Int.natAbs_neg]
  · rw [key a (-b) hra hnb.1 ham hnb.2.1 ha hnb.2.2, hab, Int.natAbs_neg]
  · rw [key (-a) (-b) hna.1 hnb.1 hna.2.1 hnb.2.1 hna.2.2 hnb.2.2, hab, Int.natAbs_neg,
      Int.natAbs_neg]

theorem C8_gcd_correct_witness :
    gcd32 (-12) 18 = (Nat.gcd (-12 : Int).natAbs (18 : Int).natAbs : Int) ∧
      gcd32 18 (-12) = gcd32 (-12) 18 ∧ gcd32 (-(-12)) 18 = gcd32 (-12) 18 ∧
      gcd32 (-12) (-18) = gcd32 (-12) 18 ∧ gcd32 (-(-12)) (-18) = gcd32 (-12) 18 ∧
      gcd32 40 60 = 20 :=
  C8_gcd_correct (-12) 18 (by decide) (by decide) (by decide) (by decide) (by decide)
    (by decide)

/-- C9: for `x = a/b` and `y = c/d` with positive denominators, `x < y` returns
true if and only if the rational number `a/b` is strictly less than the rational
number `c/d`. -/
theorem C9_less_iff (x y : Rational) (hx : 0 < x.denominator) (hy : 0 < y.denominator) :
    less x y = true ↔
      (x.numerator : ℚ) / (x.denominator : ℚ) < (y.numerator : ℚ) / (y.denominator : ℚ) := by
  have hxq : (0 : ℚ) < (x.denominator : ℚ) := by exact_mod_cast hx
  have hyq : (0 : ℚ) < (y.denominator : ℚ) := by exact_mod_cast hy
  unfold less
  rw [decide_eq_true_iff, div_lt_div_iff₀ hxq hyq]
  exact_mod_cast Iff.rfl

theorem C9_less_iff_witness :
    less (Rational.mk (-1) 2) (Rational.mk 1 3) = true ↔
      (((-1 : Int) : ℚ)) / ((2 : Int) : ℚ) < ((1 : Int) : ℚ) / ((3 : Int) : ℚ) :=
  C9_less_iff (Rational.mk (-1) 2) (Rational.mk 1 3) (by decide) (by decide)

/-- C10 (evaluation of the code where the claim fails): the claim says that
`Rational(a, b) == Rational(c, d)` is true exactly when `a*d = c*b`. For a zero
numerator the brute-force `gcd` returns `1`, the denominator is not reduced,
and `Rational(0, 5) == Rational(0, 3)` is false although `0*3 = 0*5`; the
example of the claim, `Rational(1,2) == Rational(2,4)`, is true. When one of the
numerators is not `0` the claim holds (`equal_new_iff`). -/
theorem C10_equal_zero_numerators :
    new 0 5 = Rational.mk 0 5 ∧ new 0 3 = Rational.mk 0 3 ∧
      equal (new 0 5) (new 0 3) = false ∧ (0 : Int) * 3 = 0 * 5 ∧
      gcd 0 5 = 1 ∧ equal (new 1 2) (new 2 4) = true := by
  decide

/-- C11: the standard contract of `++` and `--` in both positions: before the
operand, the operator returns the state of the object after the update; after
the operand, it returns a copy of the state before the update and leaves the
object in the state the other form would have left it. On `Rational(1,2)` the
first form of `++` returns `3/2`, the second returns `1/2`, and both leave the
object at `3/2`. -/
theorem C11_increment_decrement_contract (r : Rational) :
    (preInc r).1 = (preInc r).2 ∧ (postInc r).1 = r ∧ (postInc r).2 = (preInc r).2 ∧
      (preDec r).1 = (preDec r).2 ∧ (postDec r).1 = r ∧ (postDec r).2 = (preDec r).2 ∧
      (preInc (new 1 2)).1 = Rational.mk 3 2 ∧ (postInc (new 1 2)).1 = Rational.mk 1 2 ∧
      (preInc (new 1 2)).2 = Rational.mk 3 2 ∧ (postInc (new 1 2)).2 = Rational.mk 3 2 :=
  ⟨rfl, rfl, rfl, rfl, rfl, rfl, by decide, by decide, by decide, by decide⟩

/-- C12: for `x` and `y` with positive denominators, after `x += y` the object
`x` is field-for-field identical to the value `x.add(y)` computed from the old
`x`, and the value returned by `+=` is that state. -/
theorem C12_plusAssign_is_add (x y : Rational) (hx : 0 < x.denominator)
    (hy : 0 < y.denominator) :
    (plusAssign x y).2 = add x y ∧ (plusAssign x y).1 = (plusAssign x y).2 := by
  have hprod : x.denominator * y.denominator ≠ 0 := mul_ne_zero (ne_of_gt hx) (ne_of_gt hy)
  refine ⟨?_, rfl⟩
  unfold plusAssign add
  exact (new_of_ne_zero _ _ hprod).symm

theorem C12_plusAssign_is_add_witness :
    (plusAssign (Rational.mk 1 6) (Rational.mk (-2) 3)).2 =
        add (Rational.mk 1 6) (Rational.mk (-2) 3) ∧
      (plusAssign (Rational.mk 1 6) (Rational.mk (-2) 3)).1 =
        (plusAssign (Rational.mk 1 6) (Rational.mk (-2) 3)).2 :=
  C12_plusAssign_is_add (Rational.mk 1 6) (Rational.mk (-2) 3) (by decide) (by decide)

/-- C13 (the claim as stated fails): on 32-bit `int`, `Rational(1, INT_MIN)` is
stored as `-1/INT_MIN`, because `-INT_MIN` is `INT_MIN`; rebuilding it from its
fields, or one more `simplify`, gives `1/INT_MIN`. -/
theorem C13_min_denominator_counterexample :
    InRange 1 ∧ InRange INT_MIN ∧
      new32 1 INT_MIN = Rational.mk (-1) INT_MIN ∧
      new32 (getNumerator (new32 1 INT_MIN)) (getDenominator (new32 1 INT_MIN)) =
        Rational.mk 1 INT_MIN ∧
      new32 (getNumerator (new32 1 INT_MIN)) (getDenominator (new32 1 INT_MIN)) ≠
        new32 1 INT_MIN ∧
      simplify32 (new32 1 INT_MIN) ≠ new32 1 INT_MIN := by
  decide

/-- C13 (amended): normalization is idempotent when the denominator is not
`INT_MIN`: for every `r` produced by the constructor from any `int` `num` and
any `int` `den` other than `INT_MIN`,
`Rational(r.getNumerator(), r.getDenominator())` has the same numerator and
denominator as `r`, and `simplify` applied to `r` changes nothing; and on every
state with a denominator other than `INT_MIN`, a second `simplify` changes
nothing. -/
theorem C13_normalization_idempotent (num den : Int) (s : Rational)
    (hnum : InRange num) (hden : InRange den) (hmin : den ≠ INT_MIN)
    (hsn : InRange s.numerator) (hsd : InRange s.denominator)
    (hsmin : s.denominator ≠ INT_MIN) :
    new32 (getNumerator (new32 num den)) (getDenominator (new32 num den)) = new32 num den ∧
      simplify32 (new32 num den) = new32 num den ∧
      simplify32 (simplify32 s) = simplify32 s := by
  obtain ⟨hfix, hpos⟩ := new32_fixed num den hnum hden hmin
  refine ⟨?_, hfix, simplify32_idempotent s.numerator s.denominator hsn hsd hsmin⟩
  unfold getNumerator getDenominator
  rw [new32_of_ne_zero _ _ (ne_of_gt hpos)]
  exact hfix

theorem C13_normalization_idempotent_witness :
    new32 (getNumerator (new32 INT_MIN (-6))) (getDenominator (new32 INT_MIN (-6))) =
        new32 INT_MIN (-6) ∧
      simplify32 (new32 INT_MIN (-6)) = new32 INT_MIN (-6) ∧
      simplify32 (simplify32 (Rational.mk 6 (-4))) = simplify32 (Rational.mk 6 (-4)) :=
  C13_normalization_idempotent INT_MIN (-6) (Rational.mk 6 (-4)) (by decide) (by decide)
    (by decide) (by decide) (by decide) (by decide)

/-- C14 (evaluation of the code where the claim fails): the claim says that an
object with numerator `0` has denominator `1`. `Rational(0, 5)` is stored as
`0/5`, because `gcd(0, 5)` returns `1`; the same happens after
`setNumerator(0)` on `1/5`, after `setDenominator(5)` on `0/1`, and in the
results of `add`, `subtract` and `+=` when the numerators cancel. -/
theorem C14_zero_numerator_keeps_denominator :
    new 0 5 = Rational.mk 0 5 ∧ gcd 0 5 = 1 ∧
      setNumerator (new 1 5) 0 = Rational.mk 0 5 ∧
      (setDenominator (new 0 1) 5).1 = Rational.mk 0 5 ∧
      add (new 1 2) (new (-1) 2) = Rational.mk 0 4 ∧
      subtract (new 1 2) (new 1 2) = Rational.mk 0 4 ∧
      (plusAssign (new 1 2) (new (-1) 2)).2 = Rational.mk 0 4 := by
  decide

/-- C15: for every Rational `r`, `toString()` is the decimal rendering of the
stored numerator, then the single character `/`, then the decimal rendering of
the stored denominator, with no whitespace and no further reduction, and stream
insertion appends the same text; the decimal rendering of an integer `n` is an
optional minus sign followed by digits that denote `|n|`. `Rational(40, -60)`
renders as `-2/3` and the default Rational as `1/1`. -/
theorem C15_toString_rendering (r : Rational) (sout : String) (n : Int) :
    toString r = to_string r.numerator ++ "/" ++ to_string r.denominator ∧
      (toString r).data =
        (to_string r.numerator).data ++ '/' :: (to_string r.denominator).data ∧
      (to_string n).data = (if n < 0 then ['-'] else []) ++ Nat.toDigits 10 n.natAbs ∧
      decimalValue (Nat.toDigits 10 n.natAbs) = n.natAbs ∧
      (Nat.toDigits 10 n.natAbs).all Char.isDigit = true ∧
      (toString r).data.all (fun c => !c.isWhitespace) = true ∧
      streamInsert sout r = sout ++ toString r ∧
      streamInsert "" r = toString r ∧
      toString (new 40 (-60)) = "-2/3" ∧ toString newDefault = "1/1" ∧
      toString (Rational.mk 2 4) = "2/4" := by
  refine ⟨rfl, toString_data r, to_string_data n, decimalValue_toDigits _, ?_, ?_, rfl, ?_,
    by decide, by decide, by decide⟩
  · rw [List.all_eq_true]
    exact toDigits_forall (fun x => x.isDigit = true) digitChar_isDigit _
  · rw [List.all_eq_true]
    intro c hc
    rw [toString_data] at hc
    have hw : c.isWhitespace = false := by
      rcases List.mem_append.mp hc with h | h
      · exact to_string_no_whitespace _ c h
      · rcases List.mem_cons.mp h with h1 | h1
        · rw [h1]
          decide
        · exact to_string_no_whitespace _ c h1
    rw [hw]
    rfl
  · unfold streamInsert
    exact String.empty_append _

/-- C16: when either input is `0` the brute-force gcd returns `1`: for every
integer `n`, `gcd(0, n) = 1` and `gcd(n, 0) = 1`; the greatest common divisor of
`0` and `n` is `|n|`, so the two agree exactly when `|n| = 1`. -/
theorem C16_gcd_zero_argument (n : Int) :
    gcd 0 n = 1 ∧ gcd n 0 = 1 ∧
      (Nat.gcd 0 n.natAbs = n.natAbs ∧ Nat.gcd n.natAbs 0 = n.natAbs) ∧
      (gcd 0 n = (Nat.gcd 0 n.natAbs : Int) ↔ n.natAbs = 1) ∧
      (gcd n 0 = (Nat.gcd n.natAbs 0 : Int) ↔ n.natAbs = 1) := by
  have h1 : gcd 0 n = 1 := by rw [gcd_eq, if_pos (Or.inl rfl)]
  have h2 : gcd n 0 = 1 := by rw [gcd_eq, if_pos (Or.inr rfl)]
  refine ⟨h1, h2, ⟨Nat.gcd_zero_left _, Nat.gcd_zero_right _⟩, ?_, ?_⟩
  · rw [h1, Nat.gcd_zero_left]
    omega
  · rw [h2, Nat.gcd_zero_right]
    omega

/-- C17: increment and decrement add or subtract exactly one whole unit: for
every `r` with denominator `> 0`, the state after `++r` is field-for-field
identical to `r.add(Rational(1, 1))` and the state after `--r` is field-for-field
identical to `r.subtract(Rational(1, 1))`. -/
theorem C17_increment_is_add_one (r : Rational) (hr : 0 < r.denominator) :
    (preInc r).2 = add r (new 1 1) ∧ (preDec r).2 = subtract r (new 1 1) := by
  have hd : r.denominator ≠ 0 := ne_of_gt hr
  have hd1 : r.denominator * 1 ≠ 0 := by rwa [mul_one]
  constructor
  · unfold preInc add
    rw [new_one]
    simp only
    rw [new_of_ne_zero _ _ hd1]
    simp only [mul_one, one_mul]
  · unfold preDec subtract
    rw [new_one]
    simp only
    rw [new_of_ne_zero _ _ hd1]
    simp only [mul_one, one_mul]

theorem C17_increment_is_add_one_witness :
    (preInc (Rational.mk (-5) 3)).2 = add (Rational.mk (-5) 3) (new 1 1) ∧
      (preDec (Rational.mk (-5) 3)).2 = subtract (Rational.mk (-5) 3) (new 1 1) :=
  C17_increment_is_add_one (Rational.mk (-5) 3) (by decide)

/-- C18 (the claim as stated fails): on `r = Rational(1, 2)`, `setNumerator(2)`
reduces `2/2` to `1/1` before the denominator arrives, and `setDenominator(3)`
then leaves `1/3`, which is not `Rational(2, 3) = 2/3`. -/
theorem C18_setters_counterexample :
    setNumerator32 (new32 1 2) 2 = Rational.mk 1 1 ∧
      (setDenominator32 (setNumerator32 (new32 1 2) 2) 3).1 = Rational.mk 1 3 ∧
      new32 2 3 = Rational.mk 2 3 ∧
      (setDenominator32 (setNumerator32 (new32 1 2) 2) 3).1 ≠ new32 2 3 := by
  decide

/-- C18 (amended): for every `r` with a positive denominator and `int` values `a`
and `b` with `b ≠ 0`: if `a = 0` or `a` and the denominator `r` had before the
calls have no common divisor above `1`, then `r.setNumerator(a)` followed by
`r.setDenominator(b)` leaves `r` field-for-field identical to `Rational(a, b)`;
for `a` other than `INT_MIN` that condition is also necessary. It covers every
`r` with denominator `1`, and so the test: the default `1/1`, then
`setNumerator(1)`, `setDenominator(2)`, is `1/2`. -/
theorem C18_setters_give_fraction (r : Rational) (a b : Int)
    (hrd : InRange r.denominator) (hra : InRange a) (hrb : InRange b)
    (hr : 0 < r.denominator) (hb : b ≠ 0) :
    ((a = 0 ∨ Nat.gcd a.natAbs r.denominator.natAbs = 1) →
        (setDenominator32 (setNumerator32 r a) b).1 = new32 a b) ∧
      (a ≠ INT_MIN → (setDenominator32 (setNumerator32 r a) b).1 = new32 a b →
        (a = 0 ∨ Nat.gcd a.natAbs r.denominator.natAbs = 1)) ∧
      (r.denominator = 1 → (setDenominator32 (setNumerator32 r a) b).1 = new32 a b) ∧
      (setDenominator32 (setNumerator32 (new32 1 1) 1) 2).1 = Rational.mk 1 2 := by
  have hD0 : r.denominator ≠ 0 := ne_of_gt hr
  have hDm : r.denominator ≠ INT_MIN := by
    unfold INT_MIN
    omega
  have hset : ∀ t : Rational,
      (setDenominator32 t b).1 = simplify32 (Rational.mk t.numerator b) := by
    intro t
    unfold setDenominator32
    rw [if_neg hb]
  have hfwd : (a = 0 ∨ Nat.gcd a.natAbs r.denominator.natAbs = 1) →
      (setDenominator32 (setNumerator32 r a) b).1 = new32 a b := by
    intro hcond
    have hkeep : setNumerator32 r a = Rational.mk a r.denominator := by
      unfold setNumerator32
      by_cases ham : a = INT_MIN
      · subst ham
        rw [simplify32_min_numerator _ hrd hDm, if_neg (not_lt.mpr (le_of_lt hr))]
      · rw [(simplify32_eq_simplify a _ hra hrd ham hDm).1]
        exact simplify_of_normalized _ ⟨hr, hcond⟩
    rw [hset, hkeep, new32_of_ne_zero a b hb]
  refine ⟨hfwd, ?_, ?_, by decide⟩
  · intro ham h
    obtain ⟨e, hsn, _⟩ := simplify32_eq_simplify a r.denominator hra hrd ham hDm
    rw [hset, new32_of_ne_zero a b hb] at h
    unfold setNumerator32 at h
    rw [e] at h
    -- the numerator after `setNumerator` is still `a`
    have hnum : (simplify (Rational.mk a r.denominator)).numerator = a := by
      by_cases hbm : b = INT_MIN
      · subst hbm
        rw [simplify32_min_denominator _ hsn.1, simplify32_min_denominator _ hra] at h
        have h1 : wrap (-(simplify (Rational.mk a r.denominator)).numerator) = wrap (-a) :=
          congrArg Rational.numerator h
        rw [wrap_neg_of_ne_min _ hsn.1 hsn.2, wrap_neg_of_ne_min _ hra ham] at h1
        exact neg_injective h1
      · rw [(simplify32_eq_simplify _ b hsn.1 hrb hsn.2 hbm).1,
          (simplify32_eq_simplify a b hra hrb ham hbm).1] at h
        exact simplify_numerator_injective _ _ b hb h
    exact coprime_of_simplify_numerator a r.denominator hD0 hnum
  · intro h1
    apply hfwd
    right
    rw [h1]
    exact Nat.gcd_one_right _

theorem C18_setters_give_fraction_witness :
    (setDenominator32 (setNumerator32 (Rational.mk 5 1) 4) (-6)).1 = new32 4 (-6) :=
  (C18_setters_give_fraction (Rational.mk 5 1) 4 (-6) (by decide) (by decide) (by decide)
    (by decide) (by decide)).1 (Or.inr (by decide))

/-- C19: `Rational::gcd` never returns `0` or a negative number: for all integers
`a` and `b` the result is `≥ 1` and divides both `a` and `b`; so in `simplify`
the guard `common != 0` is always true, the two divisions never divide by zero,
and they are exact (remainder `0`, and multiplying the quotient back gives the
field). -/
theorem C19_gcd_positive_divisor (a b : Int) (r : Rational) :
    1 ≤ gcd a b ∧ gcd a b ∣ a ∧ gcd a b ∣ b ∧
      gcd r.numerator r.denominator ≠ 0 ∧
      r.numerator.tmod (gcd r.numerator r.denominator) = 0 ∧
      r.denominator.tmod (gcd r.numerator r.denominator) = 0 ∧
      (r.numerator.tdiv (gcd r.numerator r.denominator)) *
        gcd r.numerator r.denominator = r.numerator ∧
      (r.denominator.tdiv (gcd r.numerator r.denominator)) *
        gcd r.numerator r.denominator = r.denominator :=
  ⟨gcd_pos a b, gcd_dvd_left a b, gcd_dvd_right a b,
    ne_of_gt (gcd_pos _ _),
    Int.tmod_eq_zero_of_dvd (gcd_dvd_left _ _),
    Int.tmod_eq_zero_of_dvd (gcd_dvd_right _ _),
    Int.tdiv_mul_cancel (gcd_dvd_left _ _),
    Int.tdiv_mul_cancel (gcd_dvd_right _ _)⟩

/-- C20: increment and decrement undo each other on non-zero values: for every
`r` produced by the constructor whose numerator is not `0`, `++` then `--`, and
likewise `--` then `++` (both written before the operand), leave `r` with its
original numerator and denominator. -/
theorem C20_increment_decrement_cancel (num den : Int)
    (hn : getNumerator (new num den) ≠ 0) :
    (preDec (preInc (new num den)).2).2 = new num den ∧
      (preInc (preDec (new num den)).2).2 = new num den :=
  inc_dec_cancel_of_normalized (new num den) (new_normalized num den) hn

theorem C20_increment_decrement_cancel_witness :
    (preDec (preInc (new 6 (-4))).2).2 = new 6 (-4) ∧
      (preInc (preDec (new 6 (-4))).2).2 = new 6 (-4) :=
  C20_increment_decrement_cancel 6 (-4) (by decide)

end RationalNumber
